import Mathlib

/-!
Verification of a Base64 encoder (`src/encode.rs`).

Bytes are modelled as `Nat`, with `% 256` inserted exactly where the Rust
`u8`/`u32` types truncate (left shifts of a `u8`; reading bytes into a
`u32`).  Buffers are `List Nat`.  A Rust panic (out-of-bounds slice or
index) is modelled by `Except.error b`, where `b` is the state of the
output buffer at the moment of the panic, so that "fails before any byte
is written" is expressible.  `Except.ok` carries the final buffer and the
returned count.
-/

/- The 64-entry alphabet table `BASE64_TABLE` from the source:
   values 0-25 map to A-Z (65-90), 26-51 to a-z (97-122),
   52-61 to 0-9 (48-57), 62 to + (43) and 63 to / (47). -/
def BASE64_TABLE : List Nat :=
  [65, 66, 67, 68, 69, 70, 71, 72, 73, 74, 75, 76, 77, 78, 79, 80,
   81, 82, 83, 84, 85, 86, 87, 88, 89, 90, 97, 98, 99, 100, 101, 102,
   103, 104, 105, 106, 107, 108, 109, 110, 111, 112, 113, 114, 115, 116, 117, 118,
   119, 120, 121, 122, 48, 49, 50, 51, 52, 53, 54, 55, 56, 57, 43, 47]

/- `PAD_BYTE`: the ASCII code of the pad character. -/
def PAD_BYTE : Nat := 61

/- `encode_size` from the source, verbatim. -/
def encode_size (input_len : Nat) : Nat :=
  let rem := input_len % 3
  let input_chunks_complete := input_len / 3
  let complete_output_chunks := input_chunks_complete * 4
  if rem > 0 then
    complete_output_chunks + 4
  else
    complete_output_chunks

/- `read_u32` from the source: `u32::from_be_bytes([0, s[0], s[1], s[2]])`.
   The callers only pass length-3 slices (the bound is checked at the call
   site, mirroring the Rust slice bound check), so `getD` cannot default. -/
def read_u32 (s : List Nat) : Nat :=
  (s.getD 0 0 % 256) * 65536 + (s.getD 1 0 % 256) * 256 + (s.getD 2 0 % 256)

/- Overwrite `buf[i .. i + ws.length)` with `ws`: the effect of writing
   each element of `ws` through the mutable slice `&mut buf[i..i+ws.length]`. -/
def writeAt (buf : List Nat) (i : Nat) (ws : List Nat) : List Nat :=
  buf.take i ++ ws ++ buf.drop (i + ws.length)

/- The `while input_index < last_index` loop of `encode_to_slice`.
   `input_index` starts at 0 and advances by 3 towards `last_index`, a
   multiple of 3, so the loop runs exactly `last_index / 3` times; that
   count is the recursion fuel, supplied by `encode_to_slice` below.
   Each iteration checks the two slice bounds the Rust code checks
   (`&input[ii..ii+3]` and `&mut output[oi..oi+4]`) and the four table
   index bounds, panicking (`.error`) when one fails. -/
def encode_chunks : Nat → List Nat → List Nat → Nat → Nat →
    Except (List Nat) (List Nat × Nat)
  | 0, _input, output, _input_index, output_index => .ok (output, output_index)
  | chunks + 1, input, output, input_index, output_index =>
    if input_index + 3 ≤ input.length then
      let input_chunk := read_u32 ((input.drop input_index).take 3)
      if output_index + 4 ≤ output.length then
        match BASE64_TABLE[(input_chunk >>> 18) &&& 0x3f]?,
              BASE64_TABLE[(input_chunk >>> 12) &&& 0x3f]?,
              BASE64_TABLE[(input_chunk >>> 6) &&& 0x3f]?,
              BASE64_TABLE[(input_chunk >>> 0) &&& 0x3f]? with
        | some w0, some w1, some w2, some w3 =>
          encode_chunks chunks input (writeAt output output_index [w0, w1, w2, w3])
            (input_index + 3) (output_index + 4)
        | _, _, _, _ => .error output
      else .error output
    else .error output

/- `encode_to_slice` from the source: the chunk loop, then the `rem == 2`
   and `rem == 1` tail cases.  `% 256` marks the `u8` truncation of the
   left shifts; reads of `input[last_index]` are `u8`s, hence `% 256` on
   the model's unrestricted `Nat` entries. -/
def encode_to_slice (input output : List Nat) : Except (List Nat) (List Nat × Nat) :=
  let rem := input.length % 3
  let last_index := input.length - rem
  match encode_chunks (last_index / 3) input output 0 0 with
  | .error b => .error b
  | .ok (output, output_index) =>
    if rem == 2 then
      if output_index + 3 ≤ output.length then
        match input[last_index]?, input[last_index + 1]? with
        | some b0, some b1 =>
          match BASE64_TABLE[((b0 % 256) >>> 2) &&& 0x3f]?,
                BASE64_TABLE[((((b0 % 256) <<< 4) % 256) ||| ((b1 % 256) >>> 4)) &&& 0x3f]?,
                BASE64_TABLE[(((b1 % 256) <<< 2) % 256) &&& 0x3f]? with
          | some w0, some w1, some w2 =>
            .ok (writeAt output output_index [w0, w1, w2], output_index + 3)
          | _, _, _ => .error output
        | _, _ => .error output
      else .error output
    else if rem == 1 then
      if output_index + 2 ≤ output.length then
        match input[last_index]? with
        | some b0 =>
          match BASE64_TABLE[((b0 % 256) >>> 2) &&& 0x3f]?,
                BASE64_TABLE[(((b0 % 256) <<< 4) % 256) &&& 0x3f]? with
          | some w0, some w1 =>
            .ok (writeAt output output_index [w0, w1], output_index + 2)
          | _, _ => .error output
        | _ => .error output
      else .error output
    else .ok (output, output_index)

/- `add_padding` from the source.  The `for i in 0..len` loop writes
   `output[i] = PAD_BYTE`; when `len > output.length` it fills the whole
   buffer and then panics on the first out-of-bounds index. -/
def add_padding (input_len : Nat) (output : List Nat) :
    Except (List Nat) (List Nat × Nat) :=
  let rem := input_len % 3
  let len := (3 - rem) % 3
  if len ≤ output.length then
    .ok (List.replicate len PAD_BYTE ++ output.drop len, len)
  else
    .error (List.replicate output.length PAD_BYTE)

/- `encode_with_padding` from the source: `encode_to_slice`, then
   `add_padding` on `&mut output[b64_bytes..]` (whose slice bound is
   checked).  The `debug_assert_eq!`s are no-ops in release builds and are
   not modelled.  The unused `encoded_size` argument is kept for
   signature fidelity. -/
def encode_with_padding (input output : List Nat) (_encoded_size : Nat) :
    Except (List Nat) (List Nat) :=
  match encode_to_slice input output with
  | .error b => .error b
  | .ok (output, b64_bytes) =>
    if b64_bytes ≤ output.length then
      match add_padding input.length (output.drop b64_bytes) with
      | .ok (tail, _padding_bytes) => .ok (output.take b64_bytes ++ tail)
      | .error tail => .error (output.take b64_bytes ++ tail)
    else .error output

/- `encode` from the source: allocate `vec![0u8; encode_size(len)]`, run
   `encode_with_padding`, then `String::from_utf8(buf).expect(..)`.  The
   UTF-8 validity check is modelled by its ASCII sub-case `b.all (· < 128)`
   (ASCII is valid UTF-8, and the encoder only ever emits ASCII). -/
def encode (input : List Nat) : Except (List Nat) (List Nat) :=
  let len := encode_size input.length
  let buf := List.replicate len 0
  match encode_with_padding input buf len with
  | .ok b => if b.all (· < 128) then .ok b else .error b
  | .error b => .error b

/- `encode_slice` from the source: take the sub-slice
   `&mut output[..encode_size]` (panicking before any write when the
   buffer is too small), encode into it, return `encode_size`.  The bytes
   of `output` beyond the sub-slice are untouched. -/
def encode_slice (input output : List Nat) : Except (List Nat) (List Nat × Nat) :=
  let es := encode_size input.length
  if es ≤ output.length then
    match encode_with_padding input (output.take es) es with
    | .ok b => .ok (b ++ output.drop es, es)
    | .error b => .error (b ++ output.drop es)
  else .error output

/-!  Specification-side definitions, transcribed from the spec's words
     (used to state the functional-correctness claims about
     `encode_to_slice` and `encode`). -/

/- The alphabet character at a 6-bit index. -/
def tbl (i : Nat) : Nat := BASE64_TABLE.getD i 0

/- Spec: for each complete group `(b0, b1, b2)`, pack
   `V = b0<<16 | b1<<8 | b2` and emit `(V>>18)&0x3F`, `(V>>12)&0x3F`,
   `(V>>6)&0x3F`, `V&0x3F`, groups in input order. -/
def specGroupSyms : List Nat → List Nat
  | b0 :: b1 :: b2 :: rest =>
    let V := b0 <<< 16 ||| b1 <<< 8 ||| b2
    ((V >>> 18) &&& 0x3f) :: ((V >>> 12) &&& 0x3f) :: ((V >>> 6) &&& 0x3f) :: (V &&& 0x3f)
      :: specGroupSyms rest
  | _ => []

/- Spec: for trailing bytes `b0, b1` emit `(b0>>2)&0x3F`,
   `((b0<<4)|(b1>>4))&0x3F`, `(b1<<2)&0x3F`; for a single trailing `b0`
   emit `(b0>>2)&0x3F`, `(b0<<4)&0x3F`; nothing when the input length is
   a multiple of 3. -/
def specTailSyms : List Nat → List Nat
  | [b0, b1] => [(b0 >>> 2) &&& 0x3f, ((b0 <<< 4) ||| (b1 >>> 4)) &&& 0x3f, (b1 <<< 2) &&& 0x3f]
  | [b0] => [(b0 >>> 2) &&& 0x3f, (b0 <<< 4) &&& 0x3f]
  | _ => []

/- All 6-bit symbol values of the encoding of `input`, pre-padding:
   the complete groups, then the tail of `n % 3` trailing bytes. -/
def specSymbols (input : List Nat) : List Nat :=
  specGroupSyms input ++ specTailSyms (input.drop (3 * (input.length / 3)))

/- The corresponding alphabet characters. -/
def specChars (input : List Nat) : List Nat := (specSymbols input).map tbl

/- The byte count the spec says `encode_to_slice` writes:
   `4 * floor(n/3)` plus 3, 2 or 0 according to `n % 3` = 2, 1 or 0. -/
def bodyWritten (n : Nat) : Nat :=
  4 * (n / 3) + (if n % 3 = 2 then 3 else if n % 3 = 1 then 2 else 0)

/-!  Reference decoder. -/

/- Modelled from the spec: the repository has no decoder ("there is no
   decoder"), but the round-trip property needs a standard-conformant
   one, so this is a reference Base64 decoder written from the standard:
   invert the alphabet table, drop pad characters, and repack each 6-bit
   symbol group into bytes (4 symbols to 3 bytes, 3 to 2, 2 to 1). -/
def b64Inv (c : Nat) : Option Nat := BASE64_TABLE.findIdx? (· == c)

/- Modelled from the spec: repack 6-bit symbol values into 8-bit bytes,
   most-significant-first, per the standard tail rules. -/
def sixToBytes : List Nat → Option (List Nat)
  | a :: b :: c :: d :: rest =>
    match sixToBytes rest with
    | some tail =>
      some ((a * 4 + b / 16) :: ((b % 16) * 16 + c / 4) :: ((c % 4) * 64 + d) :: tail)
    | none => none
  | [a, b] => some [a * 4 + b / 16]
  | [a, b, c] => some [a * 4 + b / 16, (b % 16) * 16 + c / 4]
  | [] => some []
  | [_] => none

/- Modelled from the spec: a standard-conformant Base64 decoder on the
   byte strings the encoder produces. -/
def decode_ref (s : List Nat) : Option (List Nat) :=
  match (s.filter (fun c => c != PAD_BYTE)).mapM b64Inv with
  | some syms => sixToBytes syms
  | none => none

/- The pad count `len` computed inside `add_padding`:
   `(3 - input_len % 3) % 3`. -/
def padLen (n : Nat) : Nat := (3 - n % 3) % 3

lemma and63_lt (x : Nat) : x &&& 63 < 64 :=
  Nat.lt_succ_of_le Nat.and_le_right

lemma table_getElem {i : Nat} (h : i < 64) : BASE64_TABLE[i]? = some (tbl i) := by
  have h' : i < BASE64_TABLE.length := h
  simp [tbl, List.getElem?_eq_getElem h', List.getD_eq_getElem?_getD]

lemma table_getElem_and (x : Nat) : BASE64_TABLE[x &&& 0x3f]? = some (tbl (x &&& 0x3f)) :=
  table_getElem (and63_lt x)

lemma lor_eq_add {a b : Nat} (n : Nat) (ha : 2 ^ n ∣ a) (hb : b < 2 ^ n) : a ||| b = a + b := by
  obtain ⟨a2, rfl⟩ := ha
  rw [← Nat.mul_add_lt_is_or hb a2]

lemma exists_cons3 {α : Type} {l : List α} (h : 3 ≤ l.length) :
    ∃ a b c t, l = a :: b :: c :: t := by
  rcases l with _ | ⟨a, _ | ⟨b, _ | ⟨c, t⟩⟩⟩
  · simp at h
  · simp at h
  · simp at h
  · exact ⟨a, b, c, t, rfl⟩

lemma append_take {α : Type} {A : List α} {k : Nat} (B : List α) (n : Nat)
    (h : A.length = k) : (A ++ B).take (k + n) = A ++ B.take n := by
  subst h
  rw [List.take_append_eq_append_take, List.take_of_length_le (Nat.le_add_right _ _),
      Nat.add_sub_cancel_left]

lemma append_drop {α : Type} {A : List α} {k : Nat} (B : List α) (n : Nat)
    (h : A.length = k) : (A ++ B).drop (k + n) = B.drop n := by
  subst h
  rw [List.drop_append_eq_append_drop, List.drop_eq_nil_of_le (Nat.le_add_right _ _),
      Nat.add_sub_cancel_left, List.nil_append]

lemma writeAt_length {buf ws : List Nat} {i n : Nat} (hn : ws.length = n)
    (h : i + n ≤ buf.length) : (writeAt buf i ws).length = buf.length := by
  simp [writeAt]
  omega

lemma take_length_eq {α : Type} {l : List α} {i : Nat} (h : i ≤ l.length) :
    (l.take i).length = i := by
  simp [List.length_take]
  omega

lemma writeAt_take {buf ws : List Nat} {i n : Nat} (hn : ws.length = n)
    (h : i ≤ buf.length) :
    (writeAt buf i ws).take (i + n) = buf.take i ++ ws := by
  rw [writeAt]
  simp only [List.append_assoc]
  rw [append_take _ n (take_length_eq h), ← hn, List.take_left]

lemma writeAt_drop {buf ws : List Nat} {i n m : Nat} (hn : ws.length = n)
    (h : i ≤ buf.length) (hm : i + n ≤ m) :
    (writeAt buf i ws).drop m = buf.drop m := by
  rw [writeAt]
  simp only [List.append_assoc]
  obtain ⟨d, rfl⟩ : ∃ d, m = i + (n + d) := ⟨m - (i + n), by omega⟩
  rw [append_drop _ (n + d) (take_length_eq h), append_drop _ d hn, List.drop_drop, hn]
  congr 1
  omega

lemma pack3_eq {b0 b1 b2 : Nat} (h1 : b1 < 256) (h2 : b2 < 256) :
    b0 <<< 16 ||| b1 <<< 8 ||| b2 = b0 * 65536 + b1 * 256 + b2 := by
  have e1 : b0 <<< 16 ||| b1 <<< 8 = b0 <<< 16 + b1 <<< 8 :=
    lor_eq_add 16 (by rw [Nat.shiftLeft_eq]; exact ⟨b0, Nat.mul_comm _ _⟩)
      (by rw [Nat.shiftLeft_eq]; omega)
  have e2 : b0 <<< 16 + b1 <<< 8 ||| b2 = b0 <<< 16 + b1 <<< 8 + b2 :=
    lor_eq_add 8
      (by rw [Nat.shiftLeft_eq, Nat.shiftLeft_eq]; exact ⟨b0 * 2 ^ 8 + b1, by ring⟩)
      (by omega)
  rw [e1, e2, Nat.shiftLeft_eq, Nat.shiftLeft_eq]

lemma encode_chunks_ok {input : List Nat} (hb : ∀ b ∈ input, b < 256) :
    ∀ (k ii oi : Nat) (output : List Nat),
      ii + 3 * k ≤ input.length → oi + 4 * k ≤ output.length →
      encode_chunks k input output ii oi =
        .ok (output.take oi ++ (specGroupSyms ((input.drop ii).take (3 * k))).map tbl
              ++ output.drop (oi + 4 * k), oi + 4 * k) := by
  intro k
  induction k with
  | zero =>
    intro ii oi output h1 h2
    simp [encode_chunks, specGroupSyms, List.take_append_drop]
  | succ k ih =>
    intro ii oi output h1 h2
    have hlen3 : 3 ≤ (input.drop ii).length := by simp [List.length_drop]; omega
    obtain ⟨b0, b1, b2, rest, hd⟩ := exists_cons3 hlen3
    have hb0 : b0 < 256 :=
      hb _ (List.drop_subset ii input (hd ▸ List.mem_cons_self _ _))
    have hb1 : b1 < 256 :=
      hb _ (List.drop_subset ii input (hd ▸ List.mem_cons_of_mem _ (List.mem_cons_self _ _)))
    have hb2 : b2 < 256 :=
      hb _ (List.drop_subset ii input
        (hd ▸ List.mem_cons_of_mem _ (List.mem_cons_of_mem _ (List.mem_cons_self _ _))))
    have htake3 : (input.drop ii).take 3 = [b0, b1, b2] := by rw [hd]; rfl
    have hread : read_u32 [b0, b1, b2] = b0 * 65536 + b1 * 256 + b2 := by
      simp [read_u32, Nat.mod_eq_of_lt hb0, Nat.mod_eq_of_lt hb1, Nat.mod_eq_of_lt hb2]
    have hrest : input.drop (ii + 3) = rest := by
      have h3 := List.drop_drop 3 ii input
      rw [hd] at h3
      rw [Nat.add_comm ii 3] at *
      simpa using h3.symm
    have htake' : (input.drop ii).take (3 * (k + 1)) = b0 :: b1 :: b2 :: rest.take (3 * k) := by
      rw [hd, show 3 * (k + 1) = 3 * k + 1 + 1 + 1 by ring]
      simp [List.take_succ_cons]
    have hV : b0 <<< 16 ||| b1 <<< 8 ||| b2 = b0 * 65536 + b1 * 256 + b2 := pack3_eq hb1 hb2
    simp only [encode_chunks]
    rw [if_pos (by omega : ii + 3 ≤ input.length)]
    rw [htake3, hread]
    rw [if_pos (by omega : oi + 4 ≤ output.length)]
    simp only [table_getElem_and]
    rw [ih (ii + 3) (oi + 4) _ (by omega)
      (by rw [writeAt_length (n := 4) (by rfl) (by omega)]; omega)]
    rw [writeAt_take (n := 4) (by rfl) (by omega),
        writeAt_drop (n := 4) (m := oi + 4 + 4 * k) (by rfl) (by omega) (by omega)]
    rw [hrest, htake']
    simp only [specGroupSyms, hV, List.map_cons, Nat.shiftRight_zero]
    rw [show oi + 4 + 4 * k = oi + 4 * (k + 1) by ring]
    simp [List.append_assoc]

lemma and63_eq_mod (x : Nat) : x &&& 63 = x % 64 := by
  have h := Nat.and_pow_two_sub_one_eq_mod x 6
  norm_num at h
  exact h

lemma mod256_and63 (x : Nat) : (x % 256) &&& 63 = x &&& 63 := by
  rw [and63_eq_mod, and63_eq_mod, Nat.mod_mod_of_dvd x (by norm_num : (64:Nat) ∣ 256)]

lemma or_mod256_and63 (x y : Nat) : ((x % 256) ||| y) &&& 63 = (x ||| y) &&& 63 := by
  rw [Nat.and_distrib_right, Nat.and_distrib_right, mod256_and63]

lemma specGroupSyms_length (l : List Nat) : (specGroupSyms l).length = 4 * (l.length / 3) := by
  induction l using specGroupSyms.induct with
  | case1 b0 b1 b2 rest ih =>
    simp [specGroupSyms, ih]
    omega
  | case2 t h =>
    rcases t with _ | ⟨a, _ | ⟨b, _ | ⟨c, t⟩⟩⟩
    · simp [specGroupSyms]
    · simp [specGroupSyms]
    · simp [specGroupSyms]
    · exact absurd rfl (h a b c t)

lemma specGroupSyms_take (l : List Nat) :
    specGroupSyms (l.take (3 * (l.length / 3))) = specGroupSyms l := by
  induction l using specGroupSyms.induct with
  | case1 b0 b1 b2 rest ih =>
    rw [show 3 * ((b0 :: b1 :: b2 :: rest).length / 3) = 3 * (rest.length / 3) + 1 + 1 + 1
      by simp; omega]
    simp only [List.take_succ_cons]
    simp only [specGroupSyms, ih]
  | case2 t h =>
    rcases t with _ | ⟨a, _ | ⟨b, _ | ⟨c, t⟩⟩⟩
    · rfl
    · simp [specGroupSyms]
    · simp [specGroupSyms]
    · exact absurd rfl (h a b c t)

lemma take_append_eq {α : Type} {A B : List α} {k : Nat} (h : A.length = k) :
    (A ++ B).take k = A := by
  subst h
  exact List.take_left A B

lemma encode_to_slice_ok {input output : List Nat} (hb : ∀ b ∈ input, b < 256)
    (h : bodyWritten input.length ≤ output.length) :
    encode_to_slice input output =
      .ok (specChars input ++ output.drop (bodyWritten input.length),
           bodyWritten input.length) := by
  have hbw : bodyWritten input.length =
      4 * (input.length / 3) +
        (if input.length % 3 = 2 then 3 else if input.length % 3 = 1 then 2 else 0) := rfl
  have h4q : 4 * (input.length / 3) ≤ output.length := by
    rw [hbw] at h; split at h <;> omega
  have hG : ((specGroupSyms (input.take (3 * (input.length / 3)))).map tbl).length
      = 4 * (input.length / 3) := by
    simp [specGroupSyms_length, List.length_take]
    omega
  simp only [encode_to_slice]
  rw [show (input.length - input.length % 3) / 3 = input.length / 3 by omega]
  rw [encode_chunks_ok hb (input.length / 3) 0 0 output (by omega) (by omega)]
  simp only [List.drop_zero, List.take_zero, List.nil_append, Nat.zero_add]
  rcases (by omega : input.length % 3 = 0 ∨ input.length % 3 = 1 ∨ input.length % 3 = 2)
    with hr | hr | hr
  · -- remainder 0: no tail
    simp only [hr]
    norm_num
    rw [hbw, hr]
    norm_num
    rw [specChars, specSymbols,
        show 3 * (input.length / 3) = input.length by omega, List.drop_length]
    simp [specGroupSyms_take, specTailSyms]
  · -- remainder 1: one trailing byte, two tail symbols
    have h2 : 4 * (input.length / 3) + 2 ≤ output.length := by
      rw [hbw] at h; simp [hr] at h; omega
    have hdrop : ∃ c0, input.drop (3 * (input.length / 3)) = [c0] := by
      have hl : (input.drop (3 * (input.length / 3))).length = 1 := by simp; omega
      rcases e : input.drop (3 * (input.length / 3)) with _ | ⟨c0, _ | ⟨c1, t⟩⟩ <;>
        rw [e] at hl <;> simp at hl
      exact ⟨c0, rfl⟩
    obtain ⟨c0, hdrop⟩ := hdrop
    have hc0 : c0 < 256 :=
      hb _ (List.drop_subset _ input (hdrop ▸ List.mem_cons_self _ _))
    have e0 : input[input.length - 1]? = some c0 := by
      have e := List.getElem?_drop input (3 * (input.length / 3)) 0
      rw [hdrop] at e
      rw [show input.length - 1 = 3 * (input.length / 3) by omega]
      simpa using e.symm
    simp only [hr]
    norm_num
    rw [if_pos (by rw [specGroupSyms_length]; simp [List.length_take]; omega :
      4 * (input.length / 3) + 2 ≤
        (specGroupSyms (input.take (3 * (input.length / 3)))).length +
          (output.length - 4 * (input.length / 3)))]
    rw [e0]
    simp only [Nat.mod_eq_of_lt hc0]
    simp only [table_getElem_and]
    rw [writeAt]
    rw [take_append_eq hG]
    simp only [List.length_cons, List.length_nil, Nat.zero_add]
    rw [show 4 * (input.length / 3) + (1 + 1) = 4 * (input.length / 3) + 2 by omega]
    rw [append_drop _ 2 hG, List.drop_drop]
    rw [hbw, hr]
    norm_num
    rw [specChars, specSymbols, hdrop]
    rw [← specGroupSyms_take input]
    simp only [specTailSyms, List.map_append, List.map_cons, List.map_nil]
    simp only [mod256_and63]
    simp [List.append_assoc]
  · -- remainder 2: two trailing bytes, three tail symbols
    have h2 : 4 * (input.length / 3) + 3 ≤ output.length := by
      rw [hbw] at h; simp [hr] at h; omega
    have hdrop : ∃ c0 c1, input.drop (3 * (input.length / 3)) = [c0, c1] := by
      have hl : (input.drop (3 * (input.length / 3))).length = 2 := by simp; omega
      rcases e : input.drop (3 * (input.length / 3)) with _ | ⟨c0, _ | ⟨c1, _ | ⟨c2, t⟩⟩⟩ <;>
        rw [e] at hl <;> simp at hl
      exact ⟨c0, c1, rfl⟩
    obtain ⟨c0, c1, hdrop⟩ := hdrop
    have hc0 : c0 < 256 :=
      hb _ (List.drop_subset _ input (hdrop ▸ List.mem_cons_self _ _))
    have hc1 : c1 < 256 :=
      hb _ (List.drop_subset _ input
        (hdrop ▸ List.mem_cons_of_mem _ (List.mem_cons_self _ _)))
    have e0 : input[input.length - 2]? = some c0 := by
      have e := List.getElem?_drop input (3 * (input.length / 3)) 0
      rw [hdrop] at e
      rw [show input.length - 2 = 3 * (input.length / 3) by omega]
      simpa using e.symm
    have e1 : input[input.length - 2 + 1]? = some c1 := by
      have e := List.getElem?_drop input (3 * (input.length / 3)) 1
      rw [hdrop] at e
      rw [show input.length - 2 + 1 = 3 * (input.length / 3) + 1 by omega]
      simpa using e.symm
    simp only [hr]
    norm_num
    rw [if_pos (by rw [specGroupSyms_length]; simp [List.length_take]; omega :
      4 * (input.length / 3) + 3 ≤
        (specGroupSyms (input.take (3 * (input.length / 3)))).length +
          (output.length - 4 * (input.length / 3)))]
    rw [e0, e1]
    simp only [Nat.mod_eq_of_lt hc0, Nat.mod_eq_of_lt hc1]
    simp only [table_getElem_and]
    rw [writeAt]
    rw [take_append_eq hG]
    simp only [List.length_cons, List.length_nil, Nat.zero_add]
    rw [show 4 * (input.length / 3) + (1 + 1 + 1) = 4 * (input.length / 3) + 3 by omega]
    rw [append_drop _ 3 hG, List.drop_drop]
    rw [hbw, hr]
    norm_num
    rw [specChars, specSymbols, hdrop]
    rw [← specGroupSyms_take input]
    simp only [specTailSyms, List.map_append, List.map_cons, List.map_nil]
    simp only [mod256_and63, or_mod256_and63]
    simp [List.append_assoc]


lemma encode_size_split (n : Nat) : encode_size n = bodyWritten n + padLen n := by
  rcases (by omega : n % 3 = 0 ∨ n % 3 = 1 ∨ n % 3 = 2) with h | h | h <;>
    simp [encode_size, bodyWritten, padLen, h, Nat.mul_comm]

lemma tbl_lt (v : Nat) : tbl v < 128 := by
  by_cases h : v < 64
  · exact (by decide : ∀ i < 64, tbl i < 128) v h
  · have : BASE64_TABLE[v]? = none :=
      List.getElem?_eq_none (by simpa using Nat.le_of_not_lt h)
    simp [tbl, List.getD_eq_getElem?_getD, this]

lemma tbl_mem (v : Nat) (h : v < 64) : tbl v ∈ BASE64_TABLE := by
  have h' : v < BASE64_TABLE.length := h
  rw [tbl, List.getD_eq_getElem?_getD, List.getElem?_eq_getElem h']
  exact List.getElem_mem h'

lemma drop_append_eq {α : Type} {A B : List α} {k : Nat} (h : A.length = k) :
    (A ++ B).drop k = B := by
  have e := append_drop (A := A) B 0 h
  simpa using e

lemma specTailSyms_length (l : List Nat) :
    (specTailSyms l).length = if l.length = 2 then 3 else if l.length = 1 then 2 else 0 := by
  rcases l with _ | ⟨a, _ | ⟨b, _ | ⟨c, t⟩⟩⟩ <;> simp [specTailSyms]

lemma specChars_length (input : List Nat) :
    (specChars input).length = bodyWritten input.length := by
  rw [specChars, specSymbols]
  simp [specGroupSyms_length, specTailSyms_length, bodyWritten, List.length_drop]
  rw [show input.length - 3 * (input.length / 3) = input.length % 3 by omega]

lemma encode_with_padding_ok {input output : List Nat} (es : Nat)
    (hb : ∀ b ∈ input, b < 256)
    (hlen : output.length = encode_size input.length) :
    encode_with_padding input output es =
      .ok (specChars input ++ List.replicate (padLen input.length) PAD_BYTE) := by
  have hsplit := encode_size_split input.length
  rw [encode_with_padding, encode_to_slice_ok hb (by omega)]
  dsimp only []
  have hB : (specChars input ++ output.drop (bodyWritten input.length)).length
      = encode_size input.length := by
    simp [specChars_length]
    omega
  rw [if_pos (by rw [hB]; omega)]
  rw [drop_append_eq (specChars_length input), add_padding]
  rw [show (3 - input.length % 3) % 3 = padLen input.length by rfl]
  rw [if_pos (by simp; omega : padLen input.length ≤ (output.drop (bodyWritten input.length)).length)]
  rw [take_append_eq (specChars_length input)]
  rw [List.drop_drop, show bodyWritten input.length + padLen input.length = encode_size input.length by omega]
  rw [List.drop_eq_nil_of_le (by omega), List.append_nil]

lemma encode_ok {input : List Nat} (hb : ∀ b ∈ input, b < 256) :
    encode input =
      .ok (specChars input ++ List.replicate (padLen input.length) PAD_BYTE) := by
  rw [encode]
  rw [encode_with_padding_ok _ hb (by simp)]
  dsimp only []
  rw [if_pos]
  rw [List.all_eq_true]
  intro x hx
  rcases List.mem_append.mp hx with hx | hx
  · obtain ⟨v, hv, rfl⟩ := List.mem_map.mp (by simpa [specChars] using hx)
    simpa using tbl_lt v
  · have he := List.eq_of_mem_replicate hx
    subst he
    simp [PAD_BYTE]

lemma encode_slice_ok {input output : List Nat} (hb : ∀ b ∈ input, b < 256)
    (hcap : encode_size input.length ≤ output.length) :
    encode_slice input output =
      .ok ((specChars input ++ List.replicate (padLen input.length) PAD_BYTE)
            ++ output.drop (encode_size input.length), encode_size input.length) := by
  rw [encode_slice]
  rw [if_pos hcap]
  rw [encode_with_padding_ok _ hb (take_length_eq hcap)]

lemma b64Inv_tbl : ∀ v < 64, b64Inv (tbl v) = some v := by decide

lemma tbl_ne_pad : ∀ v < 64, tbl v ≠ PAD_BYTE := by decide

lemma specGroupSyms_lt (l : List Nat) : ∀ v ∈ specGroupSyms l, v < 64 := by
  induction l using specGroupSyms.induct with
  | case1 b0 b1 b2 rest ih =>
    simp only [specGroupSyms]
    intro v hv
    simp only [List.mem_cons] at hv
    rcases hv with h | h | h | h | h
    · exact h ▸ and63_lt _
    · exact h ▸ and63_lt _
    · exact h ▸ and63_lt _
    · exact h ▸ and63_lt _
    · exact ih v h
  | case2 t h =>
    rcases t with _ | ⟨a, _ | ⟨b, _ | ⟨c, t⟩⟩⟩
    · simp [specGroupSyms]
    · simp [specGroupSyms]
    · simp [specGroupSyms]
    · exact absurd rfl (h a b c t)

lemma specTailSyms_lt (l : List Nat) : ∀ v ∈ specTailSyms l, v < 64 := by
  rcases l with _ | ⟨a, _ | ⟨b, _ | ⟨c, t⟩⟩⟩ <;> simp only [specTailSyms] <;> intro v hv
  · simp at hv
  · simp only [List.mem_cons, List.not_mem_nil, or_false] at hv
    rcases hv with h | h <;> (subst h; exact and63_lt _)
  · simp only [List.mem_cons, List.not_mem_nil, or_false] at hv
    rcases hv with h | h | h <;> (subst h; exact and63_lt _)
  · simp at hv

lemma specSymbols_lt (input : List Nat) : ∀ v ∈ specSymbols input, v < 64 := by
  intro v hv
  rcases List.mem_append.mp hv with h | h
  · exact specGroupSyms_lt _ v h
  · exact specTailSyms_lt _ v h

lemma filter_specChars (input : List Nat) :
    (specChars input).filter (fun c => c != PAD_BYTE) = specChars input := by
  rw [List.filter_eq_self]
  intro a ha
  obtain ⟨v, hv, rfl⟩ := List.mem_map.mp ha
  simpa using tbl_ne_pad v (specSymbols_lt input v hv)

lemma mapM_inv_map (l : List Nat) (h : ∀ v ∈ l, v < 64) :
    (l.map tbl).mapM b64Inv = some l := by
  induction l with
  | nil => rfl
  | cons a t ih =>
    simp only [List.map_cons, List.mapM_cons]
    rw [b64Inv_tbl a (h a (List.mem_cons_self _ _)),
        ih (fun v hv => h v (List.mem_cons_of_mem _ hv))]
    rfl

lemma specSymbols_cons3 (b0 b1 b2 : Nat) (rest : List Nat) :
    specSymbols (b0 :: b1 :: b2 :: rest) =
      ((b0 <<< 16 ||| b1 <<< 8 ||| b2) >>> 18 &&& 63)
        :: ((b0 <<< 16 ||| b1 <<< 8 ||| b2) >>> 12 &&& 63)
        :: ((b0 <<< 16 ||| b1 <<< 8 ||| b2) >>> 6 &&& 63)
        :: ((b0 <<< 16 ||| b1 <<< 8 ||| b2) &&& 63)
        :: specSymbols rest := by
  rw [specSymbols, specSymbols]
  simp only [specGroupSyms]
  rw [show 3 * ((b0 :: b1 :: b2 :: rest).length / 3) = 3 * (rest.length / 3) + 1 + 1 + 1
    by simp; omega]
  simp [List.drop_succ_cons]

lemma tail_mid_val {a b : Nat} (hbb : b < 256) :
    ((a <<< 4) ||| (b >>> 4)) &&& 63 = a % 4 * 16 + b / 16 := by
  have h1 : (a <<< 4) &&& 63 = a % 4 * 16 := by rw [and63_eq_mod]; omega
  have h2 : (b >>> 4) &&& 63 = b / 16 := by rw [and63_eq_mod]; omega
  rw [Nat.and_distrib_right, h1, h2, lor_eq_add 4 ⟨a % 4, by ring⟩ (by omega)]

lemma sixToBytes_spec (input : List Nat) (hb : ∀ b ∈ input, b < 256) :
    sixToBytes (specSymbols input) = some input := by
  induction input using specGroupSyms.induct with
  | case1 b0 b1 b2 rest ih =>
    have hb0 : b0 < 256 := hb _ (by simp)
    have hb1 : b1 < 256 := hb _ (by simp)
    have hb2 : b2 < 256 := hb _ (by simp)
    rw [specSymbols_cons3, pack3_eq hb1 hb2]
    rw [sixToBytes]
    rw [ih (fun v hv => hb v (by simp [hv]))]
    simp only [and63_eq_mod, Option.some.injEq, List.cons.injEq]
    refine ⟨by omega, by omega, by omega, trivial⟩
  | case2 t h =>
    rcases t with _ | ⟨a, _ | ⟨b, _ | ⟨c, t⟩⟩⟩
    · rfl
    · have ha : a < 256 := hb _ (by simp)
      rw [show specSymbols [a] = specTailSyms [a] by simp [specSymbols, specGroupSyms]]
      simp only [specTailSyms]
      rw [sixToBytes]
      simp only [and63_eq_mod, Option.some.injEq, List.cons.injEq]
      refine ⟨by omega, trivial⟩
    · have ha : a < 256 := hb _ (by simp)
      have hbb : b < 256 := hb _ (by simp)
      rw [show specSymbols [a, b] = specTailSyms [a, b] by simp [specSymbols, specGroupSyms]]
      simp only [specTailSyms]
      rw [tail_mid_val hbb]
      rw [sixToBytes]
      simp only [and63_eq_mod, Option.some.injEq, List.cons.injEq]
      refine ⟨by omega, by omega, trivial⟩
    · exact absurd rfl (h a b c t)

lemma decode_encode {input : List Nat} (hb : ∀ b ∈ input, b < 256) :
    decode_ref (specChars input ++ List.replicate (padLen input.length) PAD_BYTE)
      = some input := by
  rw [decode_ref, List.filter_append, filter_specChars, List.filter_replicate]
  simp only [PAD_BYTE, bne_self_eq_false, Bool.false_eq_true, if_false, List.append_nil]
  rw [show specChars input = (specSymbols input).map tbl from rfl]
  rw [mapM_inv_map _ (specSymbols_lt input)]
  exact sixToBytes_spec input hb


/-- Claim C1: `encode_to_slice`, on a byte input and a large-enough output buffer,
writes for every complete 3-byte group, in input order, the four alphabet
characters indexed by the 6-bit fields of `V = b0<<16 | b1<<8 | b2`
(then the 3- resp. 2-symbol tail for remainder 2 resp. 1, nothing for
remainder 0) — that is exactly `specChars` — touches nothing past them,
writes no padding, and returns the count `4*floor(n/3)` plus 3, 2 or 0. -/
theorem C1_encode_to_slice_spec (input output : List Nat)
    (hb : ∀ b ∈ input, b < 256)
    (hcap : bodyWritten input.length ≤ output.length) :
    encode_to_slice input output =
      .ok (specChars input ++ output.drop (bodyWritten input.length),
           bodyWritten input.length) ∧
    (specChars input).length = bodyWritten input.length :=
  ⟨encode_to_slice_ok hb hcap, specChars_length input⟩

/-- Witness for C1 at input `[0x4D, 0x61, 0x6E, 0x4D, 0x61]` ("ManMa",
length 5, one complete group and a 2-byte tail) and an 8-byte buffer. -/
theorem C1_witness :
    encode_to_slice [77, 97, 110, 77, 97] [0, 0, 0, 0, 0, 0, 0, 0] =
      .ok (specChars [77, 97, 110, 77, 97]
            ++ List.drop (bodyWritten (List.length [77, 97, 110, 77, 97]))
                [0, 0, 0, 0, 0, 0, 0, 0],
           bodyWritten (List.length [77, 97, 110, 77, 97])) ∧
    (specChars [77, 97, 110, 77, 97]).length
      = bodyWritten (List.length [77, 97, 110, 77, 97]) :=
  C1_encode_to_slice_spec _ _ (by decide) (by decide)

/-- Claim C2: `encode_size n` is `4 * ceil(n/3)`, equivalently `4*(n/3)` when
`n % 3 = 0` and `4*(n/3) + 4` otherwise; `encode_size 0 = 0`; and the
result is always a multiple of 4. -/
theorem C2_encode_size_formula (n : Nat) :
    encode_size n = 4 * ((n + 2) / 3) ∧
    encode_size n = (if n % 3 = 0 then 4 * (n / 3) else 4 * (n / 3) + 4) ∧
    encode_size 0 = 0 ∧
    encode_size n % 4 = 0 := by
  have h1 : encode_size n = 4 * ((n + 2) / 3) := by
    simp only [encode_size]
    split <;> omega
  have h2 : encode_size n = (if n % 3 = 0 then 4 * (n / 3) else 4 * (n / 3) + 4) := by
    by_cases h : n % 3 = 0
    · rw [if_pos h]
      simp only [encode_size]
      rw [if_neg (by omega)]
      omega
    · rw [if_neg h]
      simp only [encode_size]
      rw [if_pos (by omega)]
      omega
  have h4 : encode_size n % 4 = 0 := by
    simp only [encode_size]
    split <;> omega
  exact ⟨h1, h2, rfl, h4⟩

/-- Claim C3: the standard Base64 test vectors, with strings as ASCII byte lists:
`encode [] = ""`, `encode [0x00] = "AA=="`, `encode "Man" = "TWFu"`,
`encode "Ma" = "TWE="`, `encode "M" = "TQ=="`. -/
theorem C3_test_vectors :
    encode [] = .ok [] ∧
    encode [0x00] = .ok [65, 65, 61, 61] ∧
    encode [0x4D, 0x61, 0x6E] = .ok [84, 87, 70, 117] ∧
    encode [0x4D, 0x61] = .ok [84, 87, 69, 61] ∧
    encode [0x4D] = .ok [84, 81, 61, 61] :=
  ⟨rfl, rfl, rfl, rfl, rfl⟩

/-- Claim C4: a standard-conformant reference decoder applied to `encode input`
reproduces `input` exactly, for every byte sequence. -/
theorem C4_decode_roundtrip (input : List Nat) (hb : ∀ b ∈ input, b < 256) :
    ∃ s, encode input = .ok s ∧ decode_ref s = some input :=
  ⟨_, encode_ok hb, decode_encode hb⟩

/-- Witness for C4 at input `[0x4D, 0x61, 0x6E, 0x4D]` ("ManM"). -/
theorem C4_witness :
    ∃ s, encode [77, 97, 110, 77] = .ok s ∧ decode_ref s = some [77, 97, 110, 77] :=
  C4_decode_roundtrip _ (by decide)

/-- Claim C5: on any buffer of capacity at least `encode_size (len input)`,
`encode_slice` writes into its first `encode_size (len input)` bytes
exactly the string `encode input` returns, leaves the rest of the buffer
unchanged, and returns `encode_size (len input)`. -/
theorem C5_encode_slice_matches_encode (input output : List Nat)
    (hb : ∀ b ∈ input, b < 256)
    (hcap : encode_size input.length ≤ output.length) :
    ∃ s, encode input = .ok s ∧ s.length = encode_size input.length ∧
      encode_slice input output =
        .ok (s ++ output.drop (encode_size input.length), encode_size input.length) := by
  refine ⟨_, encode_ok hb, ?_, encode_slice_ok hb hcap⟩
  have hsplit := encode_size_split input.length
  simp [specChars_length]
  omega

/-- Witness for C5 at input `[0x4D, 0x61]` and a 6-byte buffer
(capacity 6 > `encode_size 2 = 4`). -/
theorem C5_witness :
    ∃ s, encode [77, 97] = .ok s ∧ s.length = encode_size (List.length [77, 97]) ∧
      encode_slice [77, 97] [0, 0, 0, 0, 9, 9] =
        .ok (s ++ List.drop (encode_size (List.length [77, 97])) [0, 0, 0, 0, 9, 9],
             encode_size (List.length [77, 97])) :=
  C5_encode_slice_matches_encode _ _ (by decide) (by decide)

/-- Claim C6: `encode input` always returns a string whose length is exactly
`encode_size (len input)`. -/
theorem C6_encode_length (input : List Nat) (hb : ∀ b ∈ input, b < 256) :
    ∃ s, encode input = .ok s ∧ s.length = encode_size input.length := by
  refine ⟨_, encode_ok hb, ?_⟩
  have hsplit := encode_size_split input.length
  simp [specChars_length]
  omega

/-- Witness for C6 at input `[1, 2, 3, 4]`. -/
theorem C6_witness :
    ∃ s, encode [1, 2, 3, 4] = .ok s ∧ s.length = encode_size (List.length [1, 2, 3, 4]) :=
  C6_encode_length _ (by decide)

/-- Claim C7: every byte of `encode input` is an alphabet character or the pad
character, and pad characters form a suffix of length at most 2 (so they
occupy only the final 1 or 2 positions when present). -/
theorem C7_output_alphabet (input : List Nat) (hb : ∀ b ∈ input, b < 256) :
    ∃ body k, k ≤ 2 ∧
      encode input = .ok (body ++ List.replicate k PAD_BYTE) ∧
      ∀ c ∈ body, c ∈ BASE64_TABLE ∧ c ≠ PAD_BYTE := by
  refine ⟨specChars input, padLen input.length, by simp only [padLen]; omega,
    encode_ok hb, ?_⟩
  intro c hc
  simp only [specChars] at hc
  obtain ⟨v, hv, rfl⟩ := List.mem_map.mp hc
  exact ⟨tbl_mem v (specSymbols_lt input v hv), tbl_ne_pad v (specSymbols_lt input v hv)⟩

/-- Witness for C7 at input `[0x4D]` (output "TQ==", two pads). -/
theorem C7_witness :
    ∃ body k, k ≤ 2 ∧
      encode [77] = .ok (body ++ List.replicate k PAD_BYTE) ∧
      ∀ c ∈ body, c ∈ BASE64_TABLE ∧ c ≠ PAD_BYTE :=
  C7_output_alphabet _ (by decide)

/-- Claim C8: `add_padding n output`, when the span holds at least
`(3 - n % 3) % 3` bytes, writes exactly that many pad characters at
offset 0 (0, 2 or 1 of them for remainder 0, 1 or 2), returns the count,
and leaves every byte past the first `count` unchanged. -/
theorem C8_add_padding_spec (input_len : Nat) (output : List Nat)
    (hcap : (3 - input_len % 3) % 3 ≤ output.length) :
    add_padding input_len output =
      .ok (List.replicate (padLen input_len) PAD_BYTE
            ++ output.drop (padLen input_len), padLen input_len) ∧
    padLen input_len
      = (if input_len % 3 = 0 then 0 else if input_len % 3 = 1 then 2 else 1) := by
  constructor
  · have hcap2 : padLen input_len ≤ output.length := hcap
    rw [add_padding, show (3 - input_len % 3) % 3 = padLen input_len from rfl,
        if_pos hcap2]
  · simp only [padLen]
    split
    · omega
    · split <;> omega

/-- Witness for C8 at `n = 1` and a 3-byte span (2 pads written). -/
theorem C8_witness :
    add_padding 1 [0, 0, 0] =
      .ok (List.replicate (padLen 1) PAD_BYTE ++ List.drop (padLen 1) [0, 0, 0],
           padLen 1) ∧
    padLen 1 = (if 1 % 3 = 0 then 0 else if 1 % 3 = 1 then 2 else 1) :=
  C8_add_padding_spec 1 [0, 0, 0] (by decide)

/-- Claim C9: `encode_slice` on a buffer strictly smaller than
`encode_size (len input)` panics on the up-front sub-slice bound check,
before any byte is written: the error state is the untouched buffer. -/
theorem C9_undersized_buffer_fails (input output : List Nat)
    (h : output.length < encode_size input.length) :
    encode_slice input output = .error output := by
  rw [encode_slice, if_neg (by omega)]

/-- Witness for C9: a 1-byte input needs 4 output bytes; a 3-byte buffer
fails untouched. -/
theorem C9_witness : encode_slice [77] [0, 0, 0] = .error [0, 0, 0] :=
  C9_undersized_buffer_fails _ _ (by decide)

/-- Claim C10: with an adequate buffer no panic is reached: `encode` returns a
string (its index masks keep every table index below the table length,
and the `String::from_utf8` conversion succeeds), `encode_slice` returns
a count, and the `input.len() - rem` subtraction cannot underflow. -/
theorem C10_no_panic (input output : List Nat) (hb : ∀ b ∈ input, b < 256)
    (hcap : encode_size input.length ≤ output.length) :
    (∃ s, encode input = .ok s) ∧
    (∃ r, encode_slice input output = .ok r) ∧
    (∀ x : Nat, x &&& 0x3f < BASE64_TABLE.length) ∧
    input.length % 3 ≤ input.length :=
  ⟨⟨_, encode_ok hb⟩, ⟨_, encode_slice_ok hb hcap⟩,
   fun x => and63_lt x, Nat.mod_le _ _⟩

/-- Witness for C10 at input `[77, 97]` and an exactly-sized buffer. -/
theorem C10_witness :
    (∃ s, encode [77, 97] = .ok s) ∧
    (∃ r, encode_slice [77, 97] [0, 0, 0, 0] = .ok r) ∧
    (∀ x : Nat, x &&& 0x3f < BASE64_TABLE.length) ∧
    List.length [77, 97] % 3 ≤ List.length [77, 97] :=
  C10_no_panic _ _ (by decide) (by decide)
